import Mathlib

/-!
Shallow embedding of `src/src/halo2_json_regex.rs` (a halo2 circuit that checks
a witnessed string against a restricted JSON-shape regex), together with
theorems settling the specification's claims about it.

Modelling conventions:
* Pattern bytes are `Nat` (the Rust code scans `regex.as_bytes()`; bytes of a
  valid UTF-8 string are at most 0xF4, so the `u8` addition `bytes[index-1]+1`
  in the range-expansion step never wraps and is modelled as plain `Nat`
  addition).
* Rust slice indexing panics when out of bounds (and `usize` subtraction
  underflow panics on the `index - 1` of the range-expansion step when
  `index = 0`); the embedding of `split_regex` therefore returns `Option`,
  with `none` for those two panicking accesses.
* Field values are a generic `F` with a `Field` instance; `F::from(byte)` is
  the natural-number cast.
* halo2's `Selector` and `Column<Advice>` handles are modelled as the `Nat`
  indices handed out by the `ConstraintSystem` allocation counters (both
  counters start at 0 and each allocation increments by one).
* `Value::<Assigned<F>>::default()`, written by the default-assignment mode,
  is modelled as the zero field element (the sentinel-zero reading of the
  framework default).
* `layouter.assign_region`, `selector.enable` and `region.assign_advice` are
  modelled by an explicit event trace: `assign` returns the list of regions
  (each region the ordered list of enable/write events it performed) together
  with its `Result`; `Error::Synthesis` is `Except.error ()`.
-/

namespace HaloJsonRegex

/-! ### Pattern compiler: `RegexCheckConfig::split_regex` -/

/-- One pass of the `for index in 0..bytes.len()` loop of `split_regex`,
threading the `results` and `current` accumulators. `rest` is the part of
`bytes` not scanned yet (`rest = bytes.drop index`, so the head of `rest` is
`bytes[index]`); recursion is structural on `rest`, while the neighbour
accesses `bytes[index - 1]` and `bytes[index + 1]` of the range-expansion
branch read the full list. Byte codes: 123 = open brace, 34 = quote,
125 = close brace, 58 = colon, 91 = open bracket, 93 = close bracket,
45 = hyphen. -/
def splitRegexGo (bytes : List Nat) : List Nat → Nat → List (List Nat) →
    List Nat → Option (List (List Nat))
  | [], _, results, _ => some results
  | ch :: rest, index, results, current =>
    if ch = 123 ∨ ch = 34 ∨ ch = 125 ∨ ch = 58 then
      splitRegexGo bytes rest (index + 1) (results ++ [[ch]]) current
    else if ch = 91 then
      splitRegexGo bytes rest (index + 1) results []
    else if ch = 93 then
      splitRegexGo bytes rest (index + 1) (results ++ [current]) current
    else if ch = 45 then
      if index = 0 then
        none
      else
        match bytes.get? (index + 1) with
        | none => none
        | some nxt =>
          let prev := bytes.getD (index - 1) 0
          splitRegexGo bytes rest (index + 1) results
            (current ++ List.range' (prev + 1) (nxt - (prev + 1)))
    else
      splitRegexGo bytes rest (index + 1) results (current ++ [ch])

/-- `RegexCheckConfig::split_regex`: split the pattern's bytes into sections.
`none` models the panic of the unchecked `bytes[index - 1]` / `bytes[index + 1]`
accesses of the range-expansion branch. -/
def split_regex (bytes : List Nat) : Option (List (List Nat)) :=
  splitRegexGo bytes bytes 0 [] []

/-- A variant of the compiler that follows the specification's words for the
close-bracket case ("emit the accumulation buffer's contents as a class
Section, then clear it"): identical to `splitRegexGo` except that the buffer
is cleared after being emitted on a 93 byte. Used to compare the spec's
description against the source's behaviour. -/
def splitRegexSpecClearGo (bytes : List Nat) : List Nat → Nat →
    List (List Nat) → List Nat → Option (List (List Nat))
  | [], _, results, _ => some results
  | ch :: rest, index, results, current =>
    if ch = 123 ∨ ch = 34 ∨ ch = 125 ∨ ch = 58 then
      splitRegexSpecClearGo bytes rest (index + 1) (results ++ [[ch]]) current
    else if ch = 91 then
      splitRegexSpecClearGo bytes rest (index + 1) results []
    else if ch = 93 then
      splitRegexSpecClearGo bytes rest (index + 1) (results ++ [current]) []
    else if ch = 45 then
      if index = 0 then
        none
      else
        match bytes.get? (index + 1) with
        | none => none
        | some nxt =>
          let prev := bytes.getD (index - 1) 0
          splitRegexSpecClearGo bytes rest (index + 1) results
            (current ++ List.range' (prev + 1) (nxt - (prev + 1)))
    else
      splitRegexSpecClearGo bytes rest (index + 1) results (current ++ [ch])

/-- The spec-worded compiler (buffer cleared on close bracket). -/
def splitRegexSpecClear (bytes : List Nat) : Option (List (List Nat)) :=
  splitRegexSpecClearGo bytes bytes 0 [] []

example : split_regex [91, 97, 45, 122, 93] = some [List.range' 97 26] := by
  decide

example : split_regex [123, 34, 91, 97, 45, 122, 93, 34, 125] =
    some [[123], [34], List.range' 97 26, [34], [125]] := by decide

example : split_regex [91, 97, 98, 93, 99, 93] =
    some [[97, 98], [97, 98, 99]] := by decide

example : splitRegexSpecClear [91, 97, 98, 93, 99, 93] =
    some [[97, 98], [99]] := by decide

example : split_regex [45, 97] = none := by decide

example : split_regex [97, 45] = none := by decide

/-! ### Constraint builder: `RegexCheckConfig::configure` -/

/-- The `range_check` closure of `configure`'s `create_gate`: given the
section's allowed bytes and the queried cell value `v`, the expression
`section.iter().fold(value, |expr, i| expr * (Constant(F::from(i)) - value))`,
i.e. `v * (m1 - v) * ... * (mk - v)`. -/
def rangeCheck {F : Type} [Field F] (sec : List Nat) (v : F) : F :=
  sec.foldl (fun expr (i : Nat) => expr * ((i : F) - v)) v

/-- One gate registered by `configure`: the selector and advice-column handles
it queries and the section (allowed byte set) its polynomial ranges over. -/
structure Gate where
  selector : Nat
  column : Nat
  sec : List Nat
deriving DecidableEq, Repr

/-- The polynomial of a registered gate as built by
`Constraints::with_selector(q, [("range check", range_check(value))])`:
the selector query `q` times the `range_check` expression. -/
def gateConstraint {F : Type} [Field F] (g : Gate) (q v : F) : F :=
  q * rangeCheck g.sec v

/-- The two parallel arrays built by `configure` (advice-column handles and
selector handles, one pair per section). -/
structure RegexCheckConfig where
  value_advice_array : List Nat
  value_selector_array : List Nat
deriving DecidableEq, Repr

/-- The `for section in splitted_sections` loop of `configure`: each
iteration allocates the next selector handle (`meta.selector()`, counter
`numSel`) and advice-column handle (`meta.advice_column()`, counter `numAdv`),
registers the gate, and pushes the handles onto the two arrays. Returns
(advice array, selector array, registered gates). -/
def configureGo : List (List Nat) → Nat → Nat →
    List Nat × List Nat × List Gate
  | [], _, _ => ([], [], [])
  | s :: rest, numSel, numAdv =>
    let t := configureGo rest (numSel + 1) (numAdv + 1)
    (numAdv :: t.1, numSel :: t.2.1, ⟨numSel, numAdv, s⟩ :: t.2.2)

/-- `RegexCheckConfig::configure`: split the configured regex and allocate one
selector, one advice column and one gate per section, in section order.
Returns `none` when `split_regex` panics (see `split_regex`). -/
def configure (regex : List Nat) : Option (RegexCheckConfig × List Gate) :=
  (split_regex regex).map (fun sections =>
    let t := configureGo sections 0 0
    (⟨t.1, t.2.1⟩, t.2.2))

example : configure [123, 91, 97, 98, 93] =
    some (⟨[0, 1], [0, 1]⟩, [⟨0, 0, [123]⟩, ⟨1, 1, [97, 98]⟩]) := by decide

/-! ### Witness assigner: `RegexCheckConfig::assign` -/

/-- One framework call performed inside a region: enabling a selector at a
row (`selector.enable(region, offset)`) or writing a value into an advice
column at a row (`region.assign_advice(.., column, offset, || value)`). -/
inductive Event (F : Type) where
  | enable (selector : Nat) (row : Nat)
  | write (column : Nat) (row : Nat) (val : F)
deriving DecidableEq, Repr

/-- The cell returned by `region.assign_advice` (wrapped in
`RegexConstrained` by the source): the advice column, the row and the value
written there. -/
structure AssignedCell (F : Type) where
  column : Nat
  row : Nat
  val : F
deriving DecidableEq, Repr

/-- The write events of a region's trace, as assigned cells, in order. -/
def writesOf {F : Type} : List (Event F) → List (AssignedCell F)
  | [] => []
  | Event.enable _ _ :: rest => writesOf rest
  | Event.write c r v :: rest => ⟨c, r, v⟩ :: writesOf rest

/-- The `for section_index in 0..len` loop of `assign`'s default mode
(`converted_input` empty), over the remaining section indices `idxs`: each
iteration opens one region that enables the section's selector at `offset`
and writes `Value::default()` (modelled as the zero field element) into the
section's advice column at `offset`, then advances `offset` by one and
overwrites the running result with the region's result. Returns (regions,
final offset, final result). -/
def assignDefaultGo {F : Type} [Field F] (cfg : RegexCheckConfig) :
    List Nat → Nat → Except Unit (AssignedCell F) →
    List (List (Event F)) × Nat × Except Unit (AssignedCell F)
  | [], off, res => ([], off, res)
  | i :: rest, off, _ =>
    let sel := cfg.value_selector_array.getD i 0
    let col := cfg.value_advice_array.getD i 0
    let t := assignDefaultGo cfg rest (off + 1)
      (Except.ok ⟨col, off, (0 : F)⟩)
    ([Event.enable sel off, Event.write col off (0 : F)] :: t.1, t.2)

/-- The `for value in section_input` loop inside one fill-mode region: for
each value, enable the section's selector at `offset`, write the value into
the section's advice column at `offset`, overwrite the region-local result
(initially `Err(Error::Synthesis)`) with the new cell, and advance `offset`.
Returns (events of the region in order, final offset, region result). -/
def assignSegGo {F : Type} (sel col : Nat) :
    List F → Nat → Except Unit (AssignedCell F) →
    List (Event F) × Nat × Except Unit (AssignedCell F)
  | [], off, res => ([], off, res)
  | v :: vs, off, _ =>
    let t := assignSegGo sel col vs (off + 1) (Except.ok ⟨col, off, v⟩)
    (Event.enable sel off :: Event.write col off v :: t.1, t.2)

/-- The `for section_input in converted_input` loop of `assign`'s fill mode:
stop (`break`) once `section_index` reaches the number of sections; otherwise
open one region per segment, run `assignSegGo` in it, overwrite the running
result with the region's result, and continue with the next section index.
Returns (regions in order, final offset, final result). -/
def assignFillGo {F : Type} (cfg : RegexCheckConfig) :
    List (List F) → Nat → Nat → Except Unit (AssignedCell F) →
    List (List (Event F)) × Nat × Except Unit (AssignedCell F)
  | [], _, off, res => ([], off, res)
  | seg :: rest, secIdx, off, res =>
    if cfg.value_selector_array.length ≤ secIdx then
      ([], off, res)
    else
      let sel := cfg.value_selector_array.getD secIdx 0
      let col := cfg.value_advice_array.getD secIdx 0
      let t := assignSegGo sel col seg off (Except.error ())
      let u := assignFillGo cfg rest (secIdx + 1) t.2.1 t.2.2
      (t.1 :: u.1, u.2)

/-- `RegexCheckConfig::assign`: the running result starts as
`Err(Error::Synthesis)` and `offset` at 0; default mode runs when
`converted_input` is empty, fill mode otherwise. Returns the trace of
regions performed and the final result. -/
def assign {F : Type} [Field F] (cfg : RegexCheckConfig)
    (converted_input : List (List F)) :
    List (List (Event F)) × Except Unit (AssignedCell F) :=
  if converted_input.isEmpty then
    let t := assignDefaultGo cfg
      (List.range cfg.value_selector_array.length) 0 (Except.error ())
    (t.1, t.2.2)
  else
    let t := assignFillGo cfg converted_input 0 0 (Except.error ())
    (t.1, t.2.2)

example :
    assign (F := ℚ) ⟨[0, 1], [0, 1]⟩ [] =
      ([[Event.enable 0 0, Event.write 0 0 0],
        [Event.enable 1 1, Event.write 1 1 0]],
       Except.ok ⟨1, 1, 0⟩) := rfl

example :
    assign (F := ℚ) ⟨[0, 1], [0, 1]⟩ [[5], []] =
      ([[Event.enable 0 0, Event.write 0 0 5], []],
       Except.error ()) := rfl

example :
    assign (F := ℚ) ⟨[0, 1], [0, 1]⟩ [[], [7, 9]] =
      ([[], [Event.enable 1 0, Event.write 1 0 7,
             Event.enable 1 1, Event.write 1 1 9]],
       Except.ok ⟨1, 1, 9⟩) := rfl

example :
    assign (F := ℚ) ⟨[0, 1], [0, 1]⟩ [[5], [7], [9]] =
      ([[Event.enable 0 0, Event.write 0 0 5],
        [Event.enable 1 1, Event.write 1 1 7]],
       Except.ok ⟨1, 1, 7⟩) := rfl

/-! ### The membership polynomial (claim C1) -/

theorem rangeCheck_eq_mul_prod {F : Type} [Field F] (sec : List Nat) (v : F) :
    rangeCheck sec v = v * (sec.map (fun (m : Nat) => (m : F) - v)).prod := by
  suffices h : ∀ (l : List Nat) (init : F),
      l.foldl (fun expr (i : Nat) => expr * ((i : F) - v)) init =
        init * (l.map (fun (m : Nat) => (m : F) - v)).prod by
    simpa [rangeCheck] using h sec v
  intro l
  induction l with
  | nil => intro init; simp
  | cons a l ih => intro init; simp [ih, mul_assoc]

theorem rangeCheck_eq_zero_iff {F : Type} [Field F] (sec : List Nat) (v : F) :
    rangeCheck sec v = 0 ↔ v = 0 ∨ ∃ m : Nat, m ∈ sec ∧ (m : F) = v := by
  rw [rangeCheck_eq_mul_prod, mul_eq_zero, List.prod_eq_zero_iff]
  apply or_congr_right
  simp only [List.mem_map]
  constructor
  · rintro ⟨a, ha, h⟩
    exact ⟨a, ha, sub_eq_zero.mp h⟩
  · rintro ⟨m, hm, h⟩
    exact ⟨m, hm, by rw [h, sub_self]⟩

theorem rangeCheck_zero {F : Type} [Field F] (sec : List Nat) :
    rangeCheck sec (0 : F) = 0 := by
  rw [rangeCheck_eq_mul_prod, zero_mul]

/-- C1: for every compiled section, the gate registered by `configure`
constrains the column value `v` at an enabled row (selector query = 1) by the
polynomial `v * (m1 - v) * ... * (mk - v)` over the section's members, and
over the field this polynomial vanishes iff `v` is zero or `v` equals one of
the section's allowed byte values. -/
theorem claim_C1_gate_polynomial_zero_iff_membership {F : Type} [Field F]
    (regex : List Nat) (cfg : RegexCheckConfig) (gates : List Gate) (g : Gate)
    (hcfg : configure regex = some (cfg, gates)) (hg : g ∈ gates) (v : F) :
    gateConstraint g 1 v = v * (g.sec.map (fun (m : Nat) => (m : F) - v)).prod ∧
    (gateConstraint g 1 v = 0 ↔ v = 0 ∨ ∃ m : Nat, m ∈ g.sec ∧ (m : F) = v) := by
  constructor
  · rw [gateConstraint, one_mul, rangeCheck_eq_mul_prod]
  · rw [gateConstraint, one_mul]
    exact rangeCheck_eq_zero_iff g.sec v

/-- Witness for C1 at the pattern consisting of the single byte 123 and the
cell value 2. -/
theorem claim_C1_witness :
    gateConstraint (⟨0, 0, [123]⟩ : Gate) (1 : ℚ) 2 =
        2 * (([123] : List Nat).map (fun (m : Nat) => (m : ℚ) - 2)).prod ∧
    (gateConstraint (⟨0, 0, [123]⟩ : Gate) (1 : ℚ) 2 = 0 ↔
        (2 : ℚ) = 0 ∨ ∃ m : Nat, m ∈ ([123] : List Nat) ∧ (m : ℚ) = 2) :=
  claim_C1_gate_polynomial_zero_iff_membership [123] ⟨[0], [0]⟩
    [⟨0, 0, [123]⟩] ⟨0, 0, [123]⟩ rfl (List.mem_singleton.mpr rfl) 2

/-! ### Shape of the configured arrays and gates (claim C6) -/

theorem configureGo_advice (secs : List (List Nat)) :
    ∀ a b, (configureGo secs a b).1 = List.range' b secs.length := by
  induction secs with
  | nil => intro a b; simp [configureGo]
  | cons s rest ih =>
    intro a b
    simp [configureGo, ih, List.range'_succ]

theorem configureGo_selectors (secs : List (List Nat)) :
    ∀ a b, (configureGo secs a b).2.1 = List.range' a secs.length := by
  induction secs with
  | nil => intro a b; simp [configureGo]
  | cons s rest ih =>
    intro a b
    simp [configureGo, ih, List.range'_succ]

theorem configureGo_gates_length (secs : List (List Nat)) :
    ∀ a b, (configureGo secs a b).2.2.length = secs.length := by
  induction secs with
  | nil => intro a b; simp [configureGo]
  | cons s rest ih =>
    intro a b
    simp [configureGo, ih]

theorem configureGo_gates_getD (secs : List (List Nat)) :
    ∀ a b i, i < secs.length →
      (configureGo secs a b).2.2.getD i ⟨0, 0, []⟩ =
        ⟨a + i, b + i, secs.getD i []⟩ := by
  induction secs with
  | nil => intro a b i h; simp at h
  | cons s rest ih =>
    intro a b i h
    match i with
    | 0 => simp [configureGo]
    | j + 1 =>
      have hj : j < rest.length := by simpa using h
      simp only [configureGo, List.getD_cons_succ]
      rw [ih (a + 1) (b + 1) j hj]
      simp [Nat.add_assoc, Nat.add_comm 1 j]

theorem range'_getD (k : Nat) :
    ∀ s i, i < k → (List.range' s k).getD i 0 = s + i := by
  induction k with
  | zero => intro s i h; simp at h
  | succ k ih =>
    intro s i h
    rw [List.range'_succ]
    match i with
    | 0 => simp
    | j + 1 =>
      have hj : j < k := by omega
      rw [List.getD_cons_succ, ih (s + 1) j hj]
      omega

/-- C6: `configure` allocates exactly one advice column and one selector per
compiled section: both arrays have the same length as the section sequence,
and the gate at index `i` queries the selector and column at index `i` and
ranges over the section at index `i`, in section order. -/
theorem claim_C6_one_gate_per_section (regex : List Nat)
    (cfg : RegexCheckConfig) (gates : List Gate)
    (hcfg : configure regex = some (cfg, gates)) :
    ∃ sections, split_regex regex = some sections ∧
      cfg.value_advice_array.length = sections.length ∧
      cfg.value_selector_array.length = sections.length ∧
      gates.length = sections.length ∧
      ∀ i, i < sections.length →
        (gates.getD i ⟨0, 0, []⟩).selector = cfg.value_selector_array.getD i 0 ∧
        (gates.getD i ⟨0, 0, []⟩).column = cfg.value_advice_array.getD i 0 ∧
        (gates.getD i ⟨0, 0, []⟩).sec = sections.getD i [] := by
  cases hsp : split_regex regex with
  | none => rw [configure, hsp] at hcfg; simp at hcfg
  | some sections =>
    rw [configure, hsp] at hcfg
    simp only [Option.map_some] at hcfg
    have hpair := Option.some.inj hcfg
    have hc : cfg = RegexCheckConfig.mk (configureGo sections 0 0).1
        (configureGo sections 0 0).2.1 := (congrArg Prod.fst hpair).symm
    have hg : gates = (configureGo sections 0 0).2.2 :=
      (congrArg Prod.snd hpair).symm
    subst hc
    subst hg
    refine ⟨sections, rfl, ?_, ?_, ?_, ?_⟩
    · simp [configureGo_advice]
    · simp [configureGo_selectors]
    · simp [configureGo_gates_length]
    · intro i hi
      rw [configureGo_gates_getD sections 0 0 i hi]
      refine ⟨?_, ?_, rfl⟩
      · show 0 + i = (configureGo sections 0 0).2.1.getD i 0
        rw [configureGo_selectors, range'_getD sections.length 0 i hi]
      · show 0 + i = (configureGo sections 0 0).1.getD i 0
        rw [configureGo_advice, range'_getD sections.length 0 i hi]

/-- Witness for C6 at the pattern "{[ab]" (bytes 123, 91, 97, 98, 93). -/
theorem claim_C6_witness :
    ∃ sections, split_regex [123, 91, 97, 98, 93] = some sections ∧
      (RegexCheckConfig.mk [0, 1] [0, 1]).value_advice_array.length =
        sections.length ∧
      (RegexCheckConfig.mk [0, 1] [0, 1]).value_selector_array.length =
        sections.length ∧
      ([⟨0, 0, [123]⟩, ⟨1, 1, [97, 98]⟩] : List Gate).length =
        sections.length ∧
      ∀ i, i < sections.length →
        (([⟨0, 0, [123]⟩, ⟨1, 1, [97, 98]⟩] : List Gate).getD i
            ⟨0, 0, []⟩).selector =
          (RegexCheckConfig.mk [0, 1] [0, 1]).value_selector_array.getD i 0 ∧
        (([⟨0, 0, [123]⟩, ⟨1, 1, [97, 98]⟩] : List Gate).getD i
            ⟨0, 0, []⟩).column =
          (RegexCheckConfig.mk [0, 1] [0, 1]).value_advice_array.getD i 0 ∧
        (([⟨0, 0, [123]⟩, ⟨1, 1, [97, 98]⟩] : List Gate).getD i
            ⟨0, 0, []⟩).sec = sections.getD i [] :=
  claim_C6_one_gate_per_section [123, 91, 97, 98, 93] ⟨[0, 1], [0, 1]⟩
    [⟨0, 0, [123]⟩, ⟨1, 1, [97, 98]⟩] rfl

/-! ### Range expansion and the close-bracket step (claims C2, C3, C9) -/

/-- Unfolding of one loop iteration of `splitRegexGo`. -/
theorem splitRegexGo_cons (bytes : List Nat) (ch : Nat) (rest : List Nat)
    (index : Nat) (results : List (List Nat)) (current : List Nat) :
    splitRegexGo bytes (ch :: rest) index results current =
      if ch = 123 ∨ ch = 34 ∨ ch = 125 ∨ ch = 58 then
        splitRegexGo bytes rest (index + 1) (results ++ [[ch]]) current
      else if ch = 91 then
        splitRegexGo bytes rest (index + 1) results []
      else if ch = 93 then
        splitRegexGo bytes rest (index + 1) (results ++ [current]) current
      else if ch = 45 then
        if index = 0 then
          none
        else
          match bytes.get? (index + 1) with
          | none => none
          | some nxt =>
            splitRegexGo bytes rest (index + 1) results
              (current ++ List.range' (bytes.getD (index - 1) 0 + 1)
                (nxt - (bytes.getD (index - 1) 0 + 1)))
      else
        splitRegexGo bytes rest (index + 1) results (current ++ [ch]) := rfl

/-- C2: on a hyphen whose neighbours both exist (`0 < index` and
`index + 1 < bytes.length`), `split_regex`'s loop appends to the accumulation
buffer exactly the bytes strictly greater than the preceding byte and
strictly less than the following byte; the concrete class `[a-z]` (bytes
91, 97, 45, 122, 93) compiles to the 26 bytes 97..122, with 97 occurring
exactly once (the ordinary append that was already in the buffer). -/
theorem claim_C2_range_expansion (bytes rest : List Nat) (index : Nat)
    (results : List (List Nat)) (current : List Nat)
    (h0 : 0 < index) (hn : index + 1 < bytes.length) :
    splitRegexGo bytes (45 :: rest) index results current =
      splitRegexGo bytes rest (index + 1) results
        (current ++ List.range' (bytes.getD (index - 1) 0 + 1)
          (bytes.getD (index + 1) 0 - (bytes.getD (index - 1) 0 + 1))) ∧
    (∀ x, x ∈ List.range' (bytes.getD (index - 1) 0 + 1)
        (bytes.getD (index + 1) 0 - (bytes.getD (index - 1) 0 + 1)) ↔
      bytes.getD (index - 1) 0 < x ∧ x < bytes.getD (index + 1) 0) ∧
    split_regex [91, 97, 45, 122, 93] = some [List.range' 97 26] ∧
    (∀ x, x ∈ List.range' 97 26 ↔ 97 ≤ x ∧ x ≤ 122) ∧
    (List.range' 97 26).count 97 = 1 := by
  refine ⟨?_, ?_, by decide, ?_, by decide⟩
  · rw [splitRegexGo_cons]
    have hne : ¬ index = 0 := Nat.pos_iff_ne_zero.mp h0
    have hsome : bytes.get? (index + 1) = some (bytes.get ⟨index + 1, hn⟩) :=
      List.get?_eq_get hn
    have hgetD : bytes.getD (index + 1) 0 = bytes.get ⟨index + 1, hn⟩ := by
      rw [List.getD_eq_get?, hsome]
      rfl
    rw [if_neg (by decide), if_neg (by decide), if_neg (by decide),
      if_pos rfl, if_neg hne, hsome, hgetD]
  · intro x
    rw [List.mem_range'_1]
    omega
  · intro x
    rw [List.mem_range'_1]
    omega

/-- Witness for C2 at the pattern `[a-z]` with the hyphen at index 2. -/
theorem claim_C2_witness :
    (splitRegexGo [91, 97, 45, 122, 93] [45, 122, 93] 2 [] [97] =
      splitRegexGo [91, 97, 45, 122, 93] [122, 93] 3 []
        ([97] ++ List.range'
          (([91, 97, 45, 122, 93] : List Nat).getD 1 0 + 1)
          (([91, 97, 45, 122, 93] : List Nat).getD 3 0 -
            (([91, 97, 45, 122, 93] : List Nat).getD 1 0 + 1)))) ∧
    (∀ x, x ∈ List.range'
        (([91, 97, 45, 122, 93] : List Nat).getD 1 0 + 1)
        (([91, 97, 45, 122, 93] : List Nat).getD 3 0 -
          (([91, 97, 45, 122, 93] : List Nat).getD 1 0 + 1)) ↔
      ([91, 97, 45, 122, 93] : List Nat).getD 1 0 < x ∧
        x < ([91, 97, 45, 122, 93] : List Nat).getD 3 0) ∧
    split_regex [91, 97, 45, 122, 93] = some [List.range' 97 26] ∧
    (∀ x, x ∈ List.range' 97 26 ↔ 97 ≤ x ∧ x ≤ 122) ∧
    (List.range' 97 26).count 97 = 1 :=
  claim_C2_range_expansion [91, 97, 45, 122, 93] [122, 93] 2 [] [97]
    (by decide) (by decide)

/-- C3 counterexample: the claim says the loop clears the accumulation buffer
after emitting it on a close bracket; on the pattern `[ab]c]`
(bytes 91, 97, 98, 93, 99, 93) the source keeps the buffer, so the second
emitted class still contains 97 and 98, unlike the emit-then-clear reading. -/
theorem claim_C3_counterexample :
    split_regex [91, 97, 98, 93, 99, 93] = some [[97, 98], [97, 98, 99]] ∧
    splitRegexSpecClear [91, 97, 98, 93, 99, 93] = some [[97, 98], [99]] ∧
    split_regex [91, 97, 98, 93, 99, 93] ≠
      splitRegexSpecClear [91, 97, 98, 93, 99, 93] := by
  refine ⟨by decide, by decide, by decide⟩

/-- C3 (amended): on a close bracket the loop emits the accumulation buffer's
contents as a class section but does not clear the buffer; the buffer is
cleared when the next open bracket is scanned, so in a pattern whose class
groups each open with `[` (e.g. `[a][b]`, bytes 91, 97, 93, 91, 98, 93) the
members of the earlier class do not reappear in the later class section. -/
theorem claim_C3_close_bracket_emits_without_clearing (bytes rest : List Nat)
    (index : Nat) (results : List (List Nat)) (current : List Nat) :
    splitRegexGo bytes (93 :: rest) index results current =
      splitRegexGo bytes rest (index + 1) (results ++ [current]) current ∧
    splitRegexGo bytes (91 :: rest) index results current =
      splitRegexGo bytes rest (index + 1) results [] ∧
    split_regex [91, 97, 93, 91, 98, 93] = some [[97], [98]] := by
  refine ⟨?_, ?_, by decide⟩
  · rw [splitRegexGo_cons, if_neg (by decide), if_neg (by decide),
      if_pos rfl]
  · rw [splitRegexGo_cons, if_neg (by decide), if_pos rfl]

/-- When the pattern's last byte is a hyphen, the scan reaches it and the
range-expansion branch's `bytes[index + 1]` access falls outside the pattern
(`none` in the embedding), whatever the accumulated state is. -/
theorem splitRegexGo_none_of_last_hyphen (bytes : List Nat)
    (hlast : bytes.getLast? = some 45) :
    ∀ (rest : List Nat) (index : Nat) (results : List (List Nat))
      (current : List Nat), rest = bytes.drop index → rest ≠ [] →
      splitRegexGo bytes rest index results current = none := by
  intro rest
  induction rest with
  | nil => intro index results current _ hne; exact absurd rfl hne
  | cons ch rest ih =>
    intro index results current hdrop _
    have hget : bytes.get? index = some ch := by
      have h0 := congrArg (fun l => l.get? 0) hdrop
      simpa [List.get?_drop] using h0.symm
    cases rest with
    | nil =>
      have hlen : bytes.length = index + 1 := by
        have h1 := congrArg List.length hdrop
        simp only [List.length_cons, List.length_nil, List.length_drop] at h1
        have h2 : index < bytes.length := (List.get?_eq_some.mp hget).1
        omega
      have hch : ch = 45 := by
        have h3 : bytes.getLast? = some ch := by
          rw [List.getLast?_eq_get?, hlen]
          simpa using hget
        rw [h3] at hlast
        exact Option.some.inj hlast
      subst hch
      rw [splitRegexGo_cons, if_neg (by decide), if_neg (by decide),
        if_neg (by decide), if_pos rfl]
      by_cases hi : index = 0
      · rw [if_pos hi]
      · rw [if_neg hi]
        have hnone : bytes.get? (index + 1) = none :=
          List.get?_eq_none.mpr (by omega)
        rw [hnone]
    | cons ch2 rest2 =>
      have hdrop2 : ch2 :: rest2 = bytes.drop (index + 1) := by
        have h4 := congrArg (List.drop 1) hdrop
        rw [List.drop_drop] at h4
        simpa using h4
      have hrec : ∀ R C, splitRegexGo bytes (ch2 :: rest2) (index + 1) R C
          = none := fun R C => ih (index + 1) R C hdrop2 (by simp)
      rw [splitRegexGo_cons]
      split_ifs with h1 h2 h3 h4 h5
      · exact hrec _ _
      · exact hrec _ _
      · exact hrec _ _
      · rfl
      · cases hg : bytes.get? (index + 1) with
        | none => rfl
        | some nxt => exact hrec _ _
      · exact hrec _ _

/-- When every hyphen in the pattern has a byte on each side, every access of
the scan is in bounds and `split_regex` returns a value. -/
theorem splitRegexGo_isSome (bytes : List Nat)
    (hok : ∀ j, bytes.get? j = some 45 → 0 < j ∧ j + 1 < bytes.length) :
    ∀ (rest : List Nat) (index : Nat) (results : List (List Nat))
      (current : List Nat), rest = bytes.drop index →
      (splitRegexGo bytes rest index results current).isSome := by
  intro rest
  induction rest with
  | nil => intro index results current _; rfl
  | cons ch rest ih =>
    intro index results current hdrop
    have hget : bytes.get? index = some ch := by
      have h0 := congrArg (fun l => l.get? 0) hdrop
      simpa [List.get?_drop] using h0.symm
    have hdrop2 : rest = bytes.drop (index + 1) := by
      have h4 := congrArg (List.drop 1) hdrop
      rw [List.drop_drop] at h4
      simpa using h4
    rw [splitRegexGo_cons]
    split_ifs with h1 h2 h3 h4 h5
    · exact ih (index + 1) _ _ hdrop2
    · exact ih (index + 1) _ _ hdrop2
    · exact ih (index + 1) _ _ hdrop2
    · rw [h4] at hget
      obtain ⟨hpos, _⟩ := hok index hget
      omega
    · subst h4
      obtain ⟨_, hlt⟩ := hok index hget
      rw [List.get?_eq_get hlt]
      exact ih (index + 1) _ _ hdrop2
    · exact ih (index + 1) _ _ hdrop2

/-- C9: the pattern compiler indexes in bounds only when no hyphen is the
first or the last byte of the pattern. For every pattern whose first or last
byte is a hyphen, the range-expansion step's access one position before or
after the hyphen falls outside the pattern (modelled as `none`); for every
pattern with no dangling hyphen at either end the compiler returns a value. -/
theorem claim_C9_dangling_hyphen_out_of_bounds (bytes : List Nat) :
    ((bytes.head? = some 45 ∨ bytes.getLast? = some 45) →
      split_regex bytes = none) ∧
    (bytes.head? ≠ some 45 → bytes.getLast? ≠ some 45 →
      (split_regex bytes).isSome) := by
  constructor
  · rintro (hh | hl)
    · cases bytes with
      | nil => simp at hh
      | cons ch rest =>
        have hch : ch = 45 := by simpa using hh
        subst hch
        rw [split_regex, splitRegexGo_cons, if_neg (by decide),
          if_neg (by decide), if_neg (by decide), if_pos rfl, if_pos rfl]
    · have hne : bytes ≠ [] := by
        intro h
        rw [h] at hl
        simp at hl
      exact splitRegexGo_none_of_last_hyphen bytes hl bytes 0 [] []
        (by simp) hne
  · intro hh hl
    apply splitRegexGo_isSome bytes _ bytes 0 [] [] (by simp)
    intro j hj
    have hjlt : j < bytes.length := (List.get?_eq_some.mp hj).1
    have hj0 : j ≠ 0 := by
      intro h
      subst h
      rw [List.get?_zero] at hj
      exact hh hj
    have hjlast : j + 1 ≠ bytes.length := by
      intro h
      apply hl
      rw [List.getLast?_eq_get?]
      have : bytes.length - 1 = j := by omega
      rw [this]
      exact hj
    exact ⟨Nat.pos_of_ne_zero hj0, by omega⟩

/-- Witness for C9 at the one-byte pattern consisting of a hyphen (the access
`bytes[index - 1]` underflows) and at the pattern `a-` (the access
`bytes[index + 1]` is past the end). -/
theorem claim_C9_witness : split_regex [97, 45] = none :=
  (claim_C9_dangling_hyphen_out_of_bounds [97, 45]).1 (Or.inr rfl)

/-! ### Shape of the assignment trace (claim C7) -/

/-- `RegionWF F sel col start fin evs`: the event list `evs` is a well-formed
single-section region trace: enable/write pairs for selector `sel` and column
`col` at the contiguous rows `start, start+1, ..., fin-1`, with the enable
preceding the write at each row. -/
inductive RegionWF (F : Type) (sel col : Nat) : Nat → Nat → List (Event F) →
    Prop where
  | nil (start : Nat) : RegionWF F sel col start start []
  | cons (start fin : Nat) (v : F) (evs : List (Event F)) :
      RegionWF F sel col (start + 1) fin evs →
      RegionWF F sel col start fin
        (Event.enable sel start :: Event.write col start v :: evs)

/-- `RegionsChained F off regions`: each region in `regions` is well formed
and its rows start exactly where the previous region's rows ended, beginning
at `off`; hence row offsets strictly increase over the whole trace and no row
is reused. -/
inductive RegionsChained (F : Type) : Nat → List (List (Event F)) → Prop where
  | nil (off : Nat) : RegionsChained F off []
  | cons (off fin sel col : Nat) (r : List (Event F))
      (rs : List (List (Event F))) :
      RegionWF F sel col off fin r → RegionsChained F fin rs →
      RegionsChained F off (r :: rs)

theorem assignSegGo_regionWF {F : Type} (sel col : Nat) (vs : List F) :
    ∀ (off : Nat) (res : Except Unit (AssignedCell F)),
      RegionWF F sel col off (off + vs.length)
        (assignSegGo sel col vs off res).1 := by
  induction vs with
  | nil => intro off res; exact RegionWF.nil off
  | cons v vs ih =>
    intro off res
    have h : off + (vs.length + 1) = (off + 1) + vs.length := by omega
    rw [List.length_cons, h]
    exact RegionWF.cons off ((off + 1) + vs.length) v _ (ih (off + 1) _)

theorem assignSegGo_off {F : Type} (sel col : Nat) (vs : List F) :
    ∀ (off : Nat) (res : Except Unit (AssignedCell F)),
      (assignSegGo sel col vs off res).2.1 = off + vs.length := by
  induction vs with
  | nil => intro off res; simp [assignSegGo]
  | cons v vs ih =>
    intro off res
    rw [List.length_cons]
    show (assignSegGo sel col vs (off + 1) _).2.1 = off + (vs.length + 1)
    rw [ih]
    omega

theorem assignFillGo_chained {F : Type} (cfg : RegexCheckConfig) :
    ∀ (input : List (List F)) (k off : Nat)
      (res : Except Unit (AssignedCell F)),
      RegionsChained F off (assignFillGo cfg input k off res).1 := by
  intro input
  induction input with
  | nil => intro k off res; exact RegionsChained.nil off
  | cons seg rest ih =>
    intro k off res
    rw [assignFillGo]
    by_cases hk : cfg.value_selector_array.length ≤ k
    · rw [if_pos hk]
      exact RegionsChained.nil off
    · rw [if_neg hk]
      refine RegionsChained.cons off (off + seg.length) _ _ _ _
        (assignSegGo_regionWF _ _ seg off _) ?_
      rw [← assignSegGo_off (cfg.value_selector_array.getD k 0)
        (cfg.value_advice_array.getD k 0) seg off (Except.error ())]
      exact ih (k + 1) _ _

theorem assignDefaultGo_chained {F : Type} [Field F] (cfg : RegexCheckConfig) :
    ∀ (idxs : List Nat) (off : Nat) (res : Except Unit (AssignedCell F)),
      RegionsChained F off (assignDefaultGo cfg idxs off res).1 := by
  intro idxs
  induction idxs with
  | nil => intro off res; exact RegionsChained.nil off
  | cons i rest ih =>
    intro off res
    refine RegionsChained.cons off (off + 1)
      (cfg.value_selector_array.getD i 0) (cfg.value_advice_array.getD i 0)
      _ _ ?_ (ih (off + 1) _)
    exact RegionWF.cons off (off + 1) 0 [] (RegionWF.nil (off + 1))

/-- C7: across one whole `assign` pass, in either mode, the regions form a
chain: within each region the rows are contiguous with the selector enable
preceding the value write at each row, and each region starts at the row
where the previous ended, so row offsets strictly increase and no row is
reused. -/
theorem claim_C7_offsets_monotone (F : Type) [Field F]
    (cfg : RegexCheckConfig) (input : List (List F)) :
    RegionsChained F 0 (assign cfg input).1 := by
  rw [assign]
  by_cases h : input.isEmpty
  · rw [if_pos h]
    exact assignDefaultGo_chained cfg _ 0 _
  · rw [if_neg h]
    exact assignFillGo_chained cfg input 0 0 _

/-! ### Default-mode assignment (claim C4) -/

theorem assignDefaultGo_spec {F : Type} [Field F] (cfg : RegexCheckConfig) :
    ∀ (k a : Nat) (res : Except Unit (AssignedCell F)),
      assignDefaultGo cfg (List.range' a k) a res =
        ((List.range' a k).map (fun i =>
          [Event.enable (cfg.value_selector_array.getD i 0) i,
           Event.write (cfg.value_advice_array.getD i 0) i (0 : F)]),
         a + k,
         if k = 0 then res
         else Except.ok ⟨cfg.value_advice_array.getD (a + k - 1) 0,
           a + k - 1, (0 : F)⟩) := by
  intro k
  induction k with
  | zero => intro a res; simp [assignDefaultGo]
  | succ k ih =>
    intro a res
    rw [List.range'_succ]
    show ([Event.enable (cfg.value_selector_array.getD a 0) a,
        Event.write (cfg.value_advice_array.getD a 0) a (0 : F)] ::
          (assignDefaultGo cfg (List.range' (a + 1) k) (a + 1)
            (Except.ok ⟨cfg.value_advice_array.getD a 0, a, (0 : F)⟩)).1,
        (assignDefaultGo cfg (List.range' (a + 1) k) (a + 1)
            (Except.ok ⟨cfg.value_advice_array.getD a 0, a, (0 : F)⟩)).2) = _
    rw [ih (a + 1)]
    cases k with
    | zero => simp
    | succ m =>
      rw [if_neg (by omega : ¬(m + 1 = 0)), if_neg (by omega : ¬(m + 1 + 1 = 0)),
        List.map_cons]
      have h1 : a + 1 + (m + 1) - 1 = a + (m + 1 + 1) - 1 := by omega
      have h2 : a + 1 + (m + 1) = a + (m + 1 + 1) := by omega
      rw [h1, h2]

/-- C4: in default mode (`assign` with an empty input) over a configuration
with at least one compiled section, the assigner enables each section's gate
in index order, one row per section with the row offset advancing by one per
section, writes the sentinel zero value into each section's column, and the
zero value satisfies every registered gate's membership polynomial. -/
theorem claim_C4_default_mode {F : Type} [Field F] (regex : List Nat)
    (cfg : RegexCheckConfig) (gates : List Gate)
    (hcfg : configure regex = some (cfg, gates)) (hne : gates ≠ []) :
    (assign cfg ([] : List (List F))).1 =
      (List.range cfg.value_selector_array.length).map
        (fun i => [Event.enable i i, Event.write i i (0 : F)]) ∧
    (assign cfg ([] : List (List F))).2 =
      Except.ok ⟨cfg.value_selector_array.length - 1,
        cfg.value_selector_array.length - 1, (0 : F)⟩ ∧
    ∀ g ∈ gates, gateConstraint g 1 (0 : F) = 0 := by
  cases hsp : split_regex regex with
  | none => rw [configure, hsp] at hcfg; simp at hcfg
  | some sections =>
    rw [configure, hsp] at hcfg
    simp only [Option.map_some] at hcfg
    have hpair := Option.some.inj hcfg
    have hc : cfg = RegexCheckConfig.mk (configureGo sections 0 0).1
        (configureGo sections 0 0).2.1 := (congrArg Prod.fst hpair).symm
    have hg : gates = (configureGo sections 0 0).2.2 :=
      (congrArg Prod.snd hpair).symm
    have hadv : cfg.value_advice_array = List.range' 0 sections.length := by
      rw [hc]
      exact configureGo_advice sections 0 0
    have hsel : cfg.value_selector_array = List.range' 0 sections.length := by
      rw [hc]
      exact configureGo_selectors sections 0 0
    have hn : cfg.value_selector_array.length = sections.length := by
      rw [hsel]
      simp
    have hne' : sections.length ≠ 0 := by
      intro h0
      apply hne
      rw [hg, ← List.length_eq_zero]
      rw [configureGo_gates_length, h0]
    have hassign := assignDefaultGo_spec (F := F) cfg sections.length 0
      (Except.error ())
    have hrange : List.range cfg.value_selector_array.length =
        List.range' 0 sections.length := by
      rw [hn, List.range_eq_range']
    have e1 : (assign cfg ([] : List (List F))).1 =
        (assignDefaultGo cfg (List.range cfg.value_selector_array.length) 0
          (Except.error () : Except Unit (AssignedCell F))).1 := rfl
    have e2 : (assign cfg ([] : List (List F))).2 =
        (assignDefaultGo cfg (List.range cfg.value_selector_array.length) 0
          (Except.error () : Except Unit (AssignedCell F))).2.2 := rfl
    refine ⟨?_, ?_, ?_⟩
    · rw [e1, hrange, hassign]
      apply List.map_congr_left
      intro i hi
      have hilt : i < sections.length := by
        rw [List.mem_range'_1] at hi
        omega
      rw [hsel, hadv, range'_getD sections.length 0 i hilt]
      simp [hn]
    · rw [e2, hrange, hassign]
      simp only [if_neg hne']
      rw [hadv, hn, range'_getD sections.length 0 (0 + sections.length - 1)
        (by omega)]
      simp
    · intro g _
      rw [gateConstraint, one_mul, rangeCheck_zero]

/-- Witness for C4 at the two-section pattern with bytes 123, 34 over ℚ. -/
theorem claim_C4_witness :
    (assign (F := ℚ) ⟨[0, 1], [0, 1]⟩ []).1 =
      (List.range (RegexCheckConfig.mk [0, 1] [0, 1]).value_selector_array.length).map
        (fun i => [Event.enable i i, Event.write i i (0 : ℚ)]) ∧
    (assign (F := ℚ) ⟨[0, 1], [0, 1]⟩ []).2 =
      Except.ok ⟨(RegexCheckConfig.mk [0, 1] [0, 1]).value_selector_array.length - 1,
        (RegexCheckConfig.mk [0, 1] [0, 1]).value_selector_array.length - 1,
        (0 : ℚ)⟩ ∧
    ∀ g ∈ ([⟨0, 0, [123]⟩, ⟨1, 1, [34]⟩] : List Gate),
      gateConstraint g 1 (0 : ℚ) = 0 :=
  claim_C4_default_mode [123, 34] ⟨[0, 1], [0, 1]⟩
    [⟨0, 0, [123]⟩, ⟨1, 1, [34]⟩] rfl (by simp)

/-! ### Truncation of excess segments (claim C5) -/

/-- The fill-mode loop does nothing once the section index has reached the
number of sections (the `break`). -/
theorem assignFillGo_stop {F : Type} (cfg : RegexCheckConfig)
    (input : List (List F)) (k off : Nat)
    (res : Except Unit (AssignedCell F))
    (h : cfg.value_selector_array.length ≤ k) :
    assignFillGo cfg input k off res = ([], off, res) := by
  cases input with
  | nil => rfl
  | cons seg rest => rw [assignFillGo, if_pos h]

/-- Splitting the fill-mode loop: if the first `xs.length` segments all land
on in-range section indices, processing `xs ++ ys` is processing `xs` and
then `ys` from the resulting index, offset and result. -/
theorem assignFillGo_append {F : Type} (cfg : RegexCheckConfig) :
    ∀ (xs ys : List (List F)) (k off : Nat)
      (res : Except Unit (AssignedCell F)),
      k + xs.length ≤ cfg.value_selector_array.length →
      assignFillGo cfg (xs ++ ys) k off res =
        ((assignFillGo cfg xs k off res).1 ++
          (assignFillGo cfg ys (k + xs.length)
            (assignFillGo cfg xs k off res).2.1
            (assignFillGo cfg xs k off res).2.2).1,
         (assignFillGo cfg ys (k + xs.length)
            (assignFillGo cfg xs k off res).2.1
            (assignFillGo cfg xs k off res).2.2).2) := by
  intro xs
  induction xs with
  | nil =>
    intro ys k off res _
    simp [assignFillGo]
  | cons x xs ih =>
    intro ys k off res hlen
    have hk : ¬ cfg.value_selector_array.length ≤ k := by
      simp only [List.length_cons] at hlen
      omega
    have hlen' : (k + 1) + xs.length ≤ cfg.value_selector_array.length := by
      simp only [List.length_cons] at hlen
      omega
    rw [List.cons_append]
    simp only [assignFillGo, if_neg hk]
    rw [ih ys (k + 1) _ _ hlen']
    have harith : k + (xs.length + 1) = (k + 1) + xs.length := by omega
    simp only [List.length_cons, harith, List.cons_append]

/-- C5: when `assign` runs in fill mode with more segments than compiled
sections, the out-of-range segments are ignored without error: the whole
trace and result equal those of the call on the in-range prefix of the
segments. -/
theorem claim_C5_excess_segments_ignored {F : Type} [Field F]
    (cfg : RegexCheckConfig) (input : List (List F)) (hne : input ≠ [])
    (hlen : cfg.value_selector_array.length < input.length) :
    assign cfg input =
      assign cfg (input.take cfg.value_selector_array.length) := by
  by_cases hn : cfg.value_selector_array.length = 0
  · obtain ⟨seg, rest, rfl⟩ : ∃ seg rest, input = seg :: rest := by
      cases input with
      | nil => exact absurd rfl hne
      | cons seg rest => exact ⟨seg, rest, rfl⟩
    have e1 : assign cfg (seg :: rest) =
        ((assignFillGo cfg (seg :: rest) 0 0
          (Except.error () : Except Unit (AssignedCell F))).1,
         (assignFillGo cfg (seg :: rest) 0 0
          (Except.error () : Except Unit (AssignedCell F))).2.2) := rfl
    have e2 : assign cfg ([] : List (List F)) =
        ((assignDefaultGo cfg (List.range cfg.value_selector_array.length) 0
          (Except.error () : Except Unit (AssignedCell F))).1,
         (assignDefaultGo cfg (List.range cfg.value_selector_array.length) 0
          (Except.error () : Except Unit (AssignedCell F))).2.2) := rfl
    rw [e1, assignFillGo_stop cfg _ 0 0 _ (by omega), hn, List.take_zero,
      e2, hn]
    rfl
  · have htake : (input.take cfg.value_selector_array.length).isEmpty =
        false := by
      rw [List.isEmpty_eq_false_iff_exists_mem]
      have hlt : 0 < (input.take cfg.value_selector_array.length).length := by
        rw [List.length_take]
        omega
      exact ⟨_, List.get_mem _ 0 hlt⟩
    have hinput : input.isEmpty = false := by
      cases input with
      | nil => exact absurd rfl hne
      | cons a b => rfl
    have hsplit := List.take_append_drop cfg.value_selector_array.length input
    have hfill := assignFillGo_append cfg
      (input.take cfg.value_selector_array.length)
      (input.drop cfg.value_selector_array.length) 0 0
      (Except.error () : Except Unit (AssignedCell F))
      (by rw [List.length_take]; omega)
    rw [hsplit] at hfill
    have hstop := assignFillGo_stop cfg
      (input.drop cfg.value_selector_array.length)
      (0 + (input.take cfg.value_selector_array.length).length)
      (assignFillGo cfg (input.take cfg.value_selector_array.length) 0 0
        (Except.error () : Except Unit (AssignedCell F))).2.1
      (assignFillGo cfg (input.take cfg.value_selector_array.length) 0 0
        (Except.error () : Except Unit (AssignedCell F))).2.2
      (by rw [List.length_take]; omega)
    rw [hstop] at hfill
    rw [assign, if_neg (by rw [hinput]; simp), assign,
      if_neg (by rw [htake]; simp), hfill]
    simp

/-- Witness for C5 over ℚ with one section and two segments. -/
theorem claim_C5_witness :
    assign (F := ℚ) ⟨[0], [0]⟩ [[1], [2]] =
      assign (F := ℚ) ⟨[0], [0]⟩
        ([[1], [2]].take (RegexCheckConfig.mk [0] [0]).value_selector_array.length) :=
  claim_C5_excess_segments_ignored ⟨[0], [0]⟩ [[1], [2]]
    (by simp) (by simp)

/-! ### The returned result (claims C8, C10) -/

/-- Unfolding of one fill-mode value write. -/
theorem writesOf_assignSegGo_cons {F : Type} (sel col : Nat) (v : F)
    (vs : List F) (off : Nat) (res : Except Unit (AssignedCell F)) :
    writesOf (assignSegGo sel col (v :: vs) off res).1 =
      ⟨col, off, v⟩ :: writesOf (assignSegGo sel col vs (off + 1)
        (Except.ok ⟨col, off, v⟩)).1 := rfl

theorem writesOf_assignSegGo_length {F : Type} (sel col : Nat) (vs : List F) :
    ∀ (off : Nat) (res : Except Unit (AssignedCell F)),
      (writesOf (assignSegGo sel col vs off res).1).length = vs.length := by
  induction vs with
  | nil => intro off res; rfl
  | cons v vs ih =>
    intro off res
    rw [writesOf_assignSegGo_cons, List.length_cons, ih, List.length_cons]

theorem assignSegGo_res {F : Type} (sel col : Nat) (vs : List F) :
    ∀ (off : Nat) (res : Except Unit (AssignedCell F)),
      (assignSegGo sel col vs off res).2.2 =
        match vs.getLast? with
        | none => res
        | some v => Except.ok ⟨col, off + vs.length - 1, v⟩ := by
  induction vs with
  | nil => intro off res; rfl
  | cons v vs ih =>
    intro off res
    show (assignSegGo sel col vs (off + 1) (Except.ok ⟨col, off, v⟩)).2.2 = _
    rw [ih]
    cases vs with
    | nil => simp
    | cons w ws =>
      rw [List.getLast?_cons_cons]
      cases hg : (w :: ws).getLast? with
      | none => simp at hg
      | some x =>
        have h1 : off + 1 + (ws.length + 1) - 1 =
            off + (ws.length + 1 + 1) - 1 := by omega
        simp only [List.length_cons, h1]

theorem writesOf_assignSegGo_getLast {F : Type} (sel col : Nat)
    (vs : List F) :
    ∀ (off : Nat) (res : Except Unit (AssignedCell F)),
      (writesOf (assignSegGo sel col vs off res).1).getLast? =
        match vs.getLast? with
        | none => none
        | some v => some (⟨col, off + vs.length - 1, v⟩ : AssignedCell F) := by
  induction vs with
  | nil => intro off res; rfl
  | cons v vs ih =>
    intro off res
    rw [writesOf_assignSegGo_cons]
    cases vs with
    | nil => simp [assignSegGo, writesOf]
    | cons w ws =>
      rw [writesOf_assignSegGo_cons, List.getLast?_cons_cons,
        ← writesOf_assignSegGo_cons,
        ih (off + 1) (Except.ok ⟨col, off, v⟩), List.getLast?_cons_cons]
      cases hg : (w :: ws).getLast? with
      | none => simp at hg
      | some x =>
        have h1 : off + 1 + (ws.length + 1) - 1 =
            off + (ws.length + 1 + 1) - 1 := by omega
        simp only [List.length_cons, h1]

theorem assignFillGo_res_law {F : Type} (cfg : RegexCheckConfig) :
    ∀ (input : List (List F)) (k off : Nat)
      (res : Except Unit (AssignedCell F)),
      (assignFillGo cfg input k off res).2.2 =
        match (assignFillGo cfg input k off res).1.getLast? with
        | none => res
        | some reg =>
          match (writesOf reg).getLast? with
          | none => Except.error ()
          | some c => Except.ok c := by
  intro input
  induction input with
  | nil => intro k off res; rfl
  | cons seg rest ih =>
    intro k off res
    by_cases hk : cfg.value_selector_array.length ≤ k
    · rw [assignFillGo, if_pos hk]
      rfl
    · simp only [assignFillGo, if_neg hk]
      rw [ih (k + 1)]
      cases hu : (assignFillGo cfg rest (k + 1)
          (assignSegGo (cfg.value_selector_array.getD k 0)
            (cfg.value_advice_array.getD k 0) seg off (Except.error ())).2.1
          (assignSegGo (cfg.value_selector_array.getD k 0)
            (cfg.value_advice_array.getD k 0) seg off
              (Except.error ())).2.2).1 with
      | nil =>
        rw [assignSegGo_res]
        simp only [List.getLast?_nil, List.getLast?_singleton]
        rw [writesOf_assignSegGo_getLast]
        cases hseg : seg.getLast? <;> simp
      | cons r2 rs2 =>
        rw [List.getLast?_cons_cons]
        cases hg : (r2 :: rs2).getLast? with
        | none => simp at hg
        | some reg => simp

theorem assignDefaultGo_res_law {F : Type} [Field F]
    (cfg : RegexCheckConfig) :
    ∀ (idxs : List Nat) (off : Nat) (res : Except Unit (AssignedCell F)),
      (assignDefaultGo cfg idxs off res).2.2 =
        match (assignDefaultGo cfg idxs off res).1.getLast? with
        | none => res
        | some reg =>
          match (writesOf reg).getLast? with
          | none => Except.error ()
          | some c => Except.ok c := by
  intro idxs
  induction idxs with
  | nil => intro off res; rfl
  | cons i rest ih =>
    intro off res
    simp only [assignDefaultGo]
    rw [ih (off + 1)]
    cases hu : (assignDefaultGo cfg rest (off + 1)
        (Except.ok (⟨cfg.value_advice_array.getD i 0, off,
          (0 : F)⟩ : AssignedCell F))).1 with
    | nil =>
      simp only [List.getLast?_nil, List.getLast?_singleton]
      rfl
    | cons r2 rs2 =>
      rw [List.getLast?_cons_cons]
      cases hg : (r2 :: rs2).getLast? with
      | none => simp at hg
      | some reg => simp

/-- C8 (amended): `assign` returns the result of the last region it
processed: the `AssignedCell` of the last write inside that region, or a
synthesis error if the last processed region performed no write (which
covers: no sections in default mode, no processed segments in fill mode, and
a last processed segment that is empty). -/
theorem claim_C8_result_of_last_region {F : Type} [Field F]
    (cfg : RegexCheckConfig) (input : List (List F)) :
    (assign cfg input).2 =
      match (assign cfg input).1.getLast? with
      | none => Except.error ()
      | some reg =>
        match (writesOf reg).getLast? with
        | none => Except.error ()
        | some c => Except.ok c := by
  cases input with
  | nil =>
    have e1 : (assign cfg ([] : List (List F))).1 =
        (assignDefaultGo cfg (List.range cfg.value_selector_array.length) 0
          (Except.error () : Except Unit (AssignedCell F))).1 := rfl
    have e2 : (assign cfg ([] : List (List F))).2 =
        (assignDefaultGo cfg (List.range cfg.value_selector_array.length) 0
          (Except.error () : Except Unit (AssignedCell F))).2.2 := rfl
    rw [e1, e2]
    exact assignDefaultGo_res_law cfg _ 0 _
  | cons seg rest =>
    have e1 : (assign cfg (seg :: rest)).1 =
        (assignFillGo cfg (seg :: rest) 0 0
          (Except.error () : Except Unit (AssignedCell F))).1 := rfl
    have e2 : (assign cfg (seg :: rest)).2 =
        (assignFillGo cfg (seg :: rest) 0 0
          (Except.error () : Except Unit (AssignedCell F))).2.2 := rfl
    rw [e1, e2]
    exact assignFillGo_res_law cfg _ 0 0 _

/-- C8 counterexample: with two sections and the fill-mode input
`[[5], []]` over ℚ, a write is performed (the write of value 5 at row 0),
yet `assign` returns a synthesis error rather than the `AssignedCell` of the
very last write it performed. -/
theorem claim_C8_counterexample :
    writesOf (assign (F := ℚ) ⟨[0, 1], [0, 1]⟩ [[5], []]).1.flatten =
      [⟨0, 0, (5 : ℚ)⟩] ∧
    (assign (F := ℚ) ⟨[0, 1], [0, 1]⟩ [[5], []]).2 = Except.error () ∧
    (assign (F := ℚ) ⟨[0, 1], [0, 1]⟩ [[5], []]).2 ≠
      Except.ok ⟨0, 0, (5 : ℚ)⟩ := by
  refine ⟨rfl, rfl, ?_⟩
  intro h
  rw [show (assign (F := ℚ) ⟨[0, 1], [0, 1]⟩ [[5], []]).2 = Except.error ()
    from rfl] at h
  exact Except.noConfusion h

/-! ### Masking of intermediate results (claim C10) -/

theorem writesOf_append {F : Type} (l1 l2 : List (Event F)) :
    writesOf (l1 ++ l2) = writesOf l1 ++ writesOf l2 := by
  induction l1 with
  | nil => rfl
  | cons e rest ih =>
    cases e with
    | enable s r => simpa [writesOf] using ih
    | write c r v => simp [writesOf, ih]

theorem assignFillGo_off {F : Type} (cfg : RegexCheckConfig) :
    ∀ (input : List (List F)) (k off : Nat)
      (res : Except Unit (AssignedCell F)),
      k + input.length ≤ cfg.value_selector_array.length →
      (assignFillGo cfg input k off res).2.1 =
        off + (input.map List.length).sum := by
  intro input
  induction input with
  | nil => intro k off res _; simp [assignFillGo]
  | cons seg rest ih =>
    intro k off res hlen
    have hk : ¬ cfg.value_selector_array.length ≤ k := by
      simp only [List.length_cons] at hlen
      omega
    simp only [assignFillGo, if_neg hk]
    rw [ih (k + 1) _ _ (by simp only [List.length_cons] at hlen; omega),
      assignSegGo_off]
    simp only [List.map_cons, List.sum_cons]
    omega

theorem assignFillGo_writes_length {F : Type} (cfg : RegexCheckConfig) :
    ∀ (input : List (List F)) (k off : Nat)
      (res : Except Unit (AssignedCell F)),
      k + input.length ≤ cfg.value_selector_array.length →
      (writesOf (assignFillGo cfg input k off res).1.flatten).length =
        (input.map List.length).sum := by
  intro input
  induction input with
  | nil => intro k off res _; rfl
  | cons seg rest ih =>
    intro k off res hlen
    have hk : ¬ cfg.value_selector_array.length ≤ k := by
      simp only [List.length_cons] at hlen
      omega
    simp only [assignFillGo, if_neg hk]
    rw [List.flatten_cons, writesOf_append, List.length_append,
      writesOf_assignSegGo_length,
      ih (k + 1) _ _ (by simp only [List.length_cons] at hlen; omega)]
    simp

/-- C10: the overall result of a fill-mode `assign` reflects only the last
segment it processed. When the last processed segment is empty, `assign`
returns a synthesis error even though every value of the earlier segments was
written; when the last processed segment is non-empty, its last write's
`AssignedCell` is returned even though an earlier segment (here the first,
which is empty) produced a synthesis error in its region. -/
theorem claim_C10_result_masking {F : Type} [Field F]
    (cfg : RegexCheckConfig) (segs : List (List F)) (v : F)
    (h : segs.length + 2 ≤ cfg.value_selector_array.length) :
    (assign cfg (segs ++ [[]])).2 = Except.error () ∧
    (writesOf (assign cfg (segs ++ [[]])).1.flatten).length =
      (segs.map List.length).sum ∧
    (assign cfg (([] :: segs) ++ [[v]])).2 =
      Except.ok ⟨cfg.value_advice_array.getD (segs.length + 1) 0,
        (segs.map List.length).sum, v⟩ := by
  have hA : ¬ ((segs ++ [([] : List F)]).isEmpty = true) := by
    simp
  have hB : ¬ (((([] : List F) :: segs) ++ [[v]]).isEmpty = true) := by
    simp
  refine ⟨?_, ?_, ?_⟩
  · rw [assign, if_neg hA]
    show (assignFillGo cfg (segs ++ [[]]) 0 0
      (Except.error () : Except Unit (AssignedCell F))).2.2 = Except.error ()
    rw [assignFillGo_append cfg segs [[]] 0 0 _ (by omega)]
    have hk : ¬ cfg.value_selector_array.length ≤ 0 + segs.length := by
      omega
    show (assignFillGo cfg [[]] (0 + segs.length) _ _).2.2 = Except.error ()
    rw [assignFillGo, if_neg hk]
    rfl
  · rw [assign, if_neg hA]
    show (writesOf (assignFillGo cfg (segs ++ [[]]) 0 0
      (Except.error () : Except Unit (AssignedCell F))).1.flatten).length = _
    rw [assignFillGo_writes_length cfg (segs ++ [[]]) 0 0 _
      (by simp only [List.length_append, List.length_singleton]; omega)]
    simp
  · rw [assign, if_neg hB]
    show (assignFillGo cfg (([] :: segs) ++ [[v]]) 0 0
      (Except.error () : Except Unit (AssignedCell F))).2.2 = _
    rw [assignFillGo_append cfg ([] :: segs) [[v]] 0 0 _
      (by simp only [List.length_cons]; omega)]
    have hoff : (assignFillGo cfg (([] : List F) :: segs) 0 0
        (Except.error () : Except Unit (AssignedCell F))).2.1 =
        (segs.map List.length).sum := by
      rw [assignFillGo_off cfg _ 0 0 _
        (by simp only [List.length_cons]; omega)]
      simp
    have hk : ¬ cfg.value_selector_array.length ≤
        0 + (([] : List F) :: segs).length := by
      simp only [List.length_cons]
      omega
    show (assignFillGo cfg [[v]] (0 + (([] : List F) :: segs).length)
      (assignFillGo cfg (([] : List F) :: segs) 0 0
        (Except.error () : Except Unit (AssignedCell F))).2.1
      (assignFillGo cfg (([] : List F) :: segs) 0 0
        (Except.error () : Except Unit (AssignedCell F))).2.2).2.2 = _
    rw [assignFillGo, if_neg hk, hoff]
    simp only [List.length_cons, Nat.zero_add]
    rfl

/-- Witness for C10 over ℚ with three sections, one middle segment of one
value, and the masking inputs built from it. -/
theorem claim_C10_witness :
    (assign (F := ℚ) ⟨[0, 1, 2], [0, 1, 2]⟩ ([[7]] ++ [[]])).2 =
      Except.error () ∧
    (writesOf (assign (F := ℚ) ⟨[0, 1, 2], [0, 1, 2]⟩
      ([[7]] ++ [[]])).1.flatten).length =
      (([[7]] : List (List ℚ)).map List.length).sum ∧
    (assign (F := ℚ) ⟨[0, 1, 2], [0, 1, 2]⟩ (([] :: [[7]]) ++ [[5]])).2 =
      Except.ok ⟨(RegexCheckConfig.mk [0, 1, 2] [0, 1, 2]).value_advice_array.getD
        (([[7]] : List (List ℚ)).length + 1) 0,
        (([[7]] : List (List ℚ)).map List.length).sum, 5⟩ :=
  claim_C10_result_masking ⟨[0, 1, 2], [0, 1, 2]⟩ [[7]] 5 (by simp)

end HaloJsonRegex
